import Mathlib

/-!
Shallow embedding of the lmcs-db storage and consistency engine
(TypeScript sources under src/), together with theorems settling the
frozen claims about it.

The embedding models:
 * JSON-like runtime values (`Value`) with the JavaScript strict-equality
   and ordered-comparison fragment the engine uses;
 * the `LogEntry` record and the JS `Map` discipline (insertion-ordered
   association lists with in-place update);
 * `IndexManager` (src/core/indexer.ts);
 * `SecureCollection` (src/core/collection.ts): filter matching, insert,
   update, findAll and loadFromLog;
 * `LmcsDB.initialize` log replay (src/core/database.ts);
 * `TransactionManager` (src/core/transaction.ts) over a buffered
   entry-level storage model of AOLStorage;
 * the byte-level AOL file discipline of flush/compact (src/storage/aol.ts);
 * `CryptoVault` (crypto/vault.ts) parametric over an authenticated
   cipher and a key-derivation function satisfying the AES-256-GCM /
   PBKDF2 contracts.

Asynchronous methods are embedded as pure state transformers: the engine
is cooperatively single-threaded and every method under study awaits its
storage operations in program order, so each method denotes a function on
the explicit state.  A method that may throw is embedded in the style
`State -> State x Option Err`: statements execute in order, mutations
update the state component, and a throw stops execution returning the
state reached so far, which makes "state unchanged on error" a real
property of the code rather than of the encoding.
-/

namespace LmcsDb

/-! ## JS `Map` / plain-object association lists

JavaScript `Map` (and plain objects) preserve insertion order; `set` on an
existing key overwrites the value in place, `delete` removes the entry.
-/

/-- Lookup in an insertion-ordered association list (JS `Map.get` /
property access); `none` models `undefined`. -/
def alookup {α : Type} : List (String × α) → String → Option α
  | [], _ => none
  | (k, v) :: rest, key => if k = key then some v else alookup rest key

/-- JS `Map.set` / property assignment: overwrite in place when the key
exists, otherwise append at the end (insertion order). -/
def aset {α : Type} : List (String × α) → String → α → List (String × α)
  | [], key, val => [(key, val)]
  | (k, v) :: rest, key, val =>
    if k = key then (k, val) :: rest else (k, v) :: aset rest key val

/-- JS `Map.delete` / `delete` operator: drop the entry for the key. -/
def adel {α : Type} (m : List (String × α)) (key : String) : List (String × α) :=
  m.filter (fun p => p.1 ≠ key)

theorem alookup_aset_self {α : Type} (m : List (String × α)) (k : String) (v : α) :
    alookup (aset m k v) k = some v := by
  induction m with
  | nil => simp [aset, alookup]
  | cons hd tl ih =>
    by_cases h : hd.1 = k
    · cases hd; simp_all [aset, alookup]
    · cases hd; simp_all [aset, alookup]

theorem alookup_aset_ne {α : Type} (m : List (String × α)) (k k' : String) (v : α)
    (h : k' ≠ k) : alookup (aset m k v) k' = alookup m k' := by
  induction m with
  | nil => simp [aset, alookup, Ne.symm h]
  | cons hd tl ih =>
    obtain ⟨a, b⟩ := hd
    by_cases hk : a = k
    · subst hk
      simp [aset, alookup, Ne.symm h]
    · simp [aset, hk, alookup, ih]

theorem alookup_adel_self {α : Type} (m : List (String × α)) (k : String) :
    alookup (adel m k) k = none := by
  induction m with
  | nil => simp [adel, alookup]
  | cons hd tl ih =>
    by_cases h : hd.1 = k
    · simpa [adel, h] using ih
    · cases hd; simp_all [adel, alookup]

theorem alookup_adel_ne {α : Type} (m : List (String × α)) (k k' : String)
    (h : k' ≠ k) : alookup (adel m k) k' = alookup m k' := by
  induction m with
  | nil => simp [adel, alookup]
  | cons hd tl ih =>
    obtain ⟨a, b⟩ := hd
    by_cases hk : a = k
    · subst hk
      simp [adel, alookup, Ne.symm h] at ih ⊢
      exact ih
    · simp [adel, hk, alookup] at ih ⊢
      rw [ih]

/-! ## String primitives

The JS string methods the engine calls, re-implemented over the
underlying character lists: the byte-indexed core implementations do not
reduce inside the kernel, and every concrete witness below is checked by
kernel evaluation. -/

/-- JS `String.prototype.startsWith`. -/
def strStartsWith (s pre : String) : Bool :=
  pre.data.isPrefixOf s.data

/-- JS `String.prototype.split` with a one-character separator. -/
def splitOnChar (c : Char) (s : String) : List String :=
  go s.data []
where
  go : List Char → List Char → List String
    | [], acc => [String.mk acc.reverse]
    | ch :: rest, acc =>
      if ch = c then String.mk acc.reverse :: go rest [] else go rest (ch :: acc)

/-- JS `String.prototype.trim`. -/
def strTrim (s : String) : String :=
  String.mk (((s.data.dropWhile Char.isWhitespace).reverse.dropWhile Char.isWhitespace).reverse)

/-! ## JSON-like values

`Value` is the tagged union over the JS runtime kinds the engine touches:
`undef` is the JavaScript `undefined` produced by missing properties.
Document numbers in the claims are integers; the numeric kind is modelled
by `Int`. -/

inductive Value where
  | null
  | undef
  | bool (b : Bool)
  | num (n : Int)
  | str (s : String)
  | arr (elems : List Value)
  | obj (fields : List (String × Value))

/-- JS strict equality `===` on the fragment the engine compares: primitive
kinds compare by value; objects and arrays compare by reference, and a
filter literal is never reference-equal to a stored document value, so
those comparisons yield `false`. -/
def jsStrictEq : Value → Value → Bool
  | .null, .null => true
  | .undef, .undef => true
  | .bool a, .bool b => a == b
  | .num a, .num b => a == b
  | .str a, .str b => a == b
  | _, _ => false

/-- JS `>` on the operand kinds the query language is used with: numbers
compare numerically, strings lexicographically; comparisons involving
`undefined`, `null`, booleans, arrays or objects are modelled as `false`
(the spec: non-comparable operands fail the predicate). -/
def jsGt : Value → Value → Bool
  | .num a, .num b => decide (a > b)
  | .str a, .str b => compare a b == .gt
  | _, _ => false

/-- JS `>=`, same modelled fragment as `jsGt`. -/
def jsGe : Value → Value → Bool
  | .num a, .num b => decide (a ≥ b)
  | .str a, .str b => compare a b != .lt
  | _, _ => false

/-- JS `<`, same modelled fragment as `jsGt`. -/
def jsLt : Value → Value → Bool
  | .num a, .num b => decide (a < b)
  | .str a, .str b => compare a b == .lt
  | _, _ => false

/-- JS `<=`, same modelled fragment as `jsGt`. -/
def jsLe : Value → Value → Bool
  | .num a, .num b => decide (a ≤ b)
  | .str a, .str b => compare a b != .gt
  | _, _ => false

/-- Dot-path traversal `path.split('.').reduce((o, p) => o?.[p], obj)`:
each step reads a property if the current value is an object, and yields
`undefined` otherwise (optional chaining on `null`/`undefined`, property
access on primitives).  Numeric indexing into arrays is outside the
modelled fragment and yields `undefined`. -/
def getNestedValue (v : Value) (path : String) : Value :=
  go v (splitOnChar '.' path)
where
  go : Value → List String → Value
    | cur, [] => cur
    | .obj fields, p :: rest => go ((alookup fields p).getD .undef) rest
    | _, _ :: _ => .undef

mutual

/-- JSON.stringify on values, modelled as a canonical rendering: used by
the index manager as the hash key for an indexed value.  String escaping
is not modelled (indexed strings in the claims contain no quotes);
`undefined` inside an array serializes as `null` as in JS. -/
def stringifyValue : Value → String
  | .null => "null"
  | .undef => "undefined"
  | .bool b => if b then "true" else "false"
  | .num n => toString n
  | .str s => "\"" ++ s ++ "\""
  | .arr elems => "[" ++ stringifyList elems ++ "]"
  | .obj fields => "\x7b" ++ stringifyFields fields ++ "\x7d"

def stringifyList : List Value → String
  | [] => ""
  | [v] => stringifyElem v
  | v :: rest => stringifyElem v ++ "," ++ stringifyList rest

/-- Inside arrays JSON.stringify renders `undefined` as `null`. -/
def stringifyElem : Value → String
  | .undef => "null"
  | v => stringifyValue v

def stringifyFields : List (String × Value) → String
  | [] => ""
  | [(k, v)] => "\"" ++ k ++ "\":" ++ stringifyValue v
  | (k, v) :: rest => "\"" ++ k ++ "\":" ++ stringifyValue v ++ "," ++ stringifyFields rest

end

/-! ## Log entries -/

inductive LogOp where
  | INSERT
  | UPDATE
  | DELETE
  | BEGIN
  | COMMIT
  | ROLLBACK
  deriving DecidableEq, Repr

/-- The canonical unit of persistence (src/storage/base.ts `LogEntry`). -/
structure LogEntry where
  op : LogOp
  collection : String
  id : String
  data : Option Value := none
  checksum : String := ""
  timestamp : Nat := 0
  txId : Option String := none

/-- A data operation, as opposed to a transaction envelope. -/
def LogOp.isData : LogOp → Bool
  | .INSERT | .UPDATE | .DELETE => true
  | _ => false

/-- The typed errors the engine throws (src/utils/errors.ts); messages are
not modelled. `generic` stands for a plain `Error`. -/
inductive Err where
  | validation
  | transactionError
  | generic
  deriving DecidableEq, Repr

/-! ## IndexManager (src/core/indexer.ts) -/

structure IndexDefinition where
  fields : List String
  unique : Bool
  sparse : Bool
  name : String

/-- Index state: `indexes` maps collection → index name → serialized value
key → set of document ids (sets are insertion-ordered and duplicate-free,
as JS `Set`); `indexDefs` maps collection → list of definitions. -/
structure IndexMgr where
  indexes : List (String × List (String × List (String × List String)))
  indexDefs : List (String × List IndexDefinition)

def emptyIndexMgr : IndexMgr := { indexes := [], indexDefs := [] }

/-- Source `IndexManager.createIndex`: registers a definition under the derived
name `field1:field2:...`, refusing duplicates (a plain `Error`). -/
def createIndex (im : IndexMgr) (collection : String) (fields : List String)
    (unique sparse : Bool) : IndexMgr × Option Err :=
  let key := String.intercalate ":" fields
  let im :=
    if (alookup im.indexes collection).isNone then
      { indexes := aset im.indexes collection [],
        indexDefs := aset im.indexDefs collection [] }
    else im
  let colIndexes := (alookup im.indexes collection).getD []
  if (alookup colIndexes key).isSome then (im, some .generic)
  else
    ({ indexes := aset im.indexes collection (aset colIndexes key []),
       indexDefs := aset im.indexDefs collection
         ((alookup im.indexDefs collection).getD [] ++
          [{ fields := fields, unique := unique, sparse := sparse, name := key }]) },
     none)

/-- Source `IndexManager.extractKeyValue`: split the index name on `:`, extract
each component by dot-path; a single field yields the bare value, several
yield the array of values. -/
def extractKeyValue (doc : Value) (key : String) : Value :=
  let fs := splitOnChar ':' key
  let vs := fs.map (getNestedValue doc)
  match vs with
  | [v] => v
  | _ => .arr vs

/-- Source `IndexManager.indexDocument`: for every index of the collection, add
the id to the set keyed by the serialized extracted value, skipping
documents whose extracted value is `undefined`. -/
def indexDocument (im : IndexMgr) (collection id : String) (doc : Value) : IndexMgr :=
  match alookup im.indexes collection with
  | none => im
  | some colIndexes =>
    let colIndexes := colIndexes.map fun p =>
      let (key, indexMap) := p
      match extractKeyValue doc key with
      | .undef => (key, indexMap)
      | v =>
        let valueKey := stringifyValue v
        let set := (alookup indexMap valueKey).getD []
        let set := if id ∈ set then set else set ++ [id]
        (key, aset indexMap valueKey set)
    { im with indexes := aset im.indexes collection colIndexes }

/-- Source `IndexManager.removeDocument`: undo `indexDocument`; empty sets are
dropped. -/
def removeDocument (im : IndexMgr) (collection id : String) (doc : Value) : IndexMgr :=
  match alookup im.indexes collection with
  | none => im
  | some colIndexes =>
    let colIndexes := colIndexes.map fun p =>
      let (key, indexMap) := p
      match extractKeyValue doc key with
      | .undef => (key, indexMap)
      | v =>
        let valueKey := stringifyValue v
        match alookup indexMap valueKey with
        | none => (key, indexMap)
        | some set =>
          let set := set.erase id
          if set.isEmpty then (key, adel indexMap valueKey)
          else (key, aset indexMap valueKey set)
    { im with indexes := aset im.indexes collection colIndexes }

/-- One index's contribution to `queryByIndex`'s candidate list: a key
extracting to a defined value with a non-empty hit in the index pushes
that id set. -/
def queryStep (filter : Value) (acc : List (List String))
    (p : String × List (String × List String)) : List (List String) :=
  match extractKeyValue filter p.1 with
  | .undef => acc
  | v =>
    match alookup p.2 (stringifyValue v) with
    | some s => if s.length > 0 then acc ++ [s] else acc
    | none => acc

/-- Source `IndexManager.queryByIndex`: the intersection of the candidate sets,
or `none` when no index applies. -/
def queryByIndex (im : IndexMgr) (collection : String) (filter : Value) :
    Option (List String) :=
  match alookup im.indexes collection with
  | none => none
  | some colIndexes =>
    match colIndexes.foldl (queryStep filter) [] with
    | [] => none
    | [c] => some c
    | c :: rest => some (rest.foldl (fun a b => a.filter (fun x => x ∈ b)) c)

def getIndexDefinitions (im : IndexMgr) (collection : String) : List IndexDefinition :=
  (alookup im.indexDefs collection).getD []

/-! ## SecureCollection filter language (src/core/collection.ts `matchesFilter`)

`matchesFilter` iterates the filter's entries.  A key starting with `$` is
dispatched: `$or`/`$and` recurse into subfilters and return immediately;
`$gt`/`$gte`/`$lt`/`$lte`/`$ne`/`$in` read `Object.entries(value)[0]` as a
`(field, operand)` pair, compare the document's value at `field` and
return immediately; any other `$` key is skipped.  A plain key is an
equality test (strict `===`) between the document's dot-path value and the
filter value — note that an operator map appearing as a field's value goes
through this strict-equality branch.  A non-object filter has no entries
and matches everything. -/

mutual

def matchesEntries (doc : Value) : List (String × Value) → Bool
  | [] => true
  | (key, value) :: rest =>
    if strStartsWith key "$" then
      if key = "$or" then
        match value with
        | .arr subs => anyMatches doc subs
        | _ => false
      else if key = "$and" then
        match value with
        | .arr subs => allMatches doc subs
        | _ => false
      else if key = "$gt" then
        match value with
        | .obj ((field, v) :: _) => jsGt (getNestedValue doc field) v
        | _ => false
      else if key = "$gte" then
        match value with
        | .obj ((field, v) :: _) => jsGe (getNestedValue doc field) v
        | _ => false
      else if key = "$lt" then
        match value with
        | .obj ((field, v) :: _) => jsLt (getNestedValue doc field) v
        | _ => false
      else if key = "$lte" then
        match value with
        | .obj ((field, v) :: _) => jsLe (getNestedValue doc field) v
        | _ => false
      else if key = "$ne" then
        match value with
        | .obj ((field, v) :: _) => !jsStrictEq (getNestedValue doc field) v
        | _ => false
      else if key = "$in" then
        match value with
        | .obj ((field, v) :: _) =>
          match v with
          | .arr elems => elems.any (fun e => jsStrictEq e (getNestedValue doc field))
          | _ => false
        | _ => false
      else
        matchesEntries doc rest
    else
      if jsStrictEq (getNestedValue doc key) value then matchesEntries doc rest
      else false

def anyMatches (doc : Value) : List Value → Bool
  | [] => false
  | sub :: rest => matchesFilter doc sub || anyMatches doc rest

def allMatches (doc : Value) : List Value → Bool
  | [] => true
  | sub :: rest => matchesFilter doc sub && allMatches doc rest

def matchesFilter (doc : Value) : Value → Bool
  | .obj fields => matchesEntries doc fields
  | _ => true

end

/-! ## SecureCollection state and operations (src/core/collection.ts)

The state couples the collection's data map with the shared `IndexManager`
and the sequence of entries appended to the storage.  Entries are recorded
as handed to `storage.append` (the storage applies its own checksum
discipline, modelled separately at the storage layer).  Transaction
enlistment (`txManager.addOperation`) mutates only the transaction
manager, which is not part of this state; in `insert` it happens after
both validation checks, so the error paths below coincide with the
source's. -/

structure CollState where
  name : String
  data : List (String × Value)
  idx : IndexMgr
  log : List LogEntry

/-- The id resolution `doc._id || this.generateId()`: the modelled domain has `_id` either a
non-empty string or absent/undefined (falsy), in which case the generated
id is used. -/
def resolveId (doc : Value) (genId : String) : String :=
  match doc with
  | .obj fields =>
    match alookup fields "_id" with
    | some (.str s) => if s = "" then genId else s
    | _ => genId
  | _ => genId

/-- The spread `\x7b ...doc, _id: id \x7d`. -/
def withId (doc : Value) (id : String) : Value :=
  match doc with
  | .obj fields => .obj (aset fields "_id" (.str id))
  | _ => .obj [("_id", .str id)]

/-- The unique-index check of `SecureCollection.insert`: for every unique
index definition, read the incoming document's value at the definition's
first field; when it is defined, query the index with the single-field
equality filter and flag a violation when the candidate set is
non-empty. -/
def uniqueViolation (st : CollState) (fullDoc : Value) : Bool :=
  ((getIndexDefinitions st.idx st.name).filter (fun d => d.unique)).any fun d =>
    let f := d.fields.headD ""
    match getNestedValue fullDoc f with
    | .undef => false
    | v =>
      match queryByIndex st.idx st.name (.obj [(f, v)]) with
      | some s => s.length > 0
      | none => false

/-- Source `SecureCollection.insert`.  Duplicate-id and unique-index checks
precede every mutation; on success the entry is appended to the storage,
then the data map and the indexes are updated. -/
def insertRun (st : CollState) (doc : Value) (genId : String) (now : Nat)
    (txId : Option String) : CollState × Option Err :=
  let id := resolveId doc genId
  let fullDoc := withId doc id
  if (alookup st.data id).isSome then (st, some .validation)
  else if uniqueViolation st fullDoc then (st, some .validation)
  else
    let entry : LogEntry :=
      { op := .INSERT, collection := st.name, id := id, data := some fullDoc,
        timestamp := now, txId := txId }
    ({ st with
        log := st.log ++ [entry],
        data := aset st.data id fullDoc,
        idx := indexDocument st.idx st.name id fullDoc },
     none)

/-- The merge `\x7b ...doc, ...updates, _id: id \x7d` of
`SecureCollection.update`. -/
def mergeUpdate (doc updates : Value) (id : String) : Value :=
  let base := match doc with | .obj fs => fs | _ => []
  let merged :=
    match updates with
    | .obj us => us.foldl (fun acc p => aset acc p.1 p.2) base
    | _ => base
  .obj (aset merged "_id" (.str id))

/-- Source `SecureCollection.update`: materialize the matches first, then for
each append an `UPDATE` entry, remove the old document from the indexes,
overwrite the data map, and reindex; no unique-index check is performed.
Returns the updated state and the count. -/
def updateRun (st : CollState) (filter updates : Value) (now : Nat)
    (txId : Option String) : CollState × Nat :=
  let docsToUpdate :=
    (st.data.filter (fun p => matchesFilter p.2 filter)).map
      (fun p => (p.1, p.2, mergeUpdate p.2 updates p.1))
  docsToUpdate.foldl
    (fun acc t =>
      let (s, n) := acc
      let (id, oldDoc, newDoc) := t
      let entry : LogEntry :=
        { op := .UPDATE, collection := s.name, id := id, data := some newDoc,
          timestamp := now, txId := txId }
      let s := { s with log := s.log ++ [entry] }
      let s := { s with idx := removeDocument s.idx s.name id oldDoc }
      let s := { s with data := aset s.data id newDoc }
      let s := { s with idx := indexDocument s.idx s.name id newDoc }
      (s, n + 1))
    (st, 0)

/-- Source `SecureCollection.remove`: materialize the matches, then for each
append a `DELETE` entry, remove the document from the indexes and drop it
from the data map. -/
def removeRun (st : CollState) (filter : Value) (now : Nat)
    (txId : Option String) : CollState × Nat :=
  let toDelete := st.data.filter (fun p => matchesFilter p.2 filter)
  toDelete.foldl
    (fun acc t =>
      let (s, n) := acc
      let (id, oldDoc) := t
      let entry : LogEntry :=
        { op := .DELETE, collection := s.name, id := id,
          timestamp := now, txId := txId }
      let s := { s with log := s.log ++ [entry] }
      let s := { s with idx := removeDocument s.idx s.name id oldDoc }
      let s := { s with data := adel s.data id }
      (s, n + 1))
    (st, 0)

structure QueryOptions where
  filter : Option Value := none
  sort : Option (List (String × Int)) := none
  limit : Option Nat := none
  skip : Option Nat := none

/-- The comparator of `SecureCollection.findAll`'s sort: first non-tie
among the sort fields decides Missing fields compare as `undefined` and
tie. -/
def sortCmp (sortFields : List (String × Int)) (a b : Value) : Int :=
  match sortFields with
  | [] => 0
  | (field, order) :: rest =>
    let aVal := getNestedValue a field
    let bVal := getNestedValue b field
    if jsLt aVal bVal then (if order = 1 then -1 else 1)
    else if jsGt aVal bVal then (if order = 1 then 1 else -1)
    else sortCmp rest a b

/-- Source `SecureCollection.findAll`: filter, then sort, then skip, then limit.
`skip: 0` and `limit: 0` are falsy in JS and slice nothing. -/
def findAll (st : CollState) (options : QueryOptions) : List Value :=
  let results := st.data.map (fun p => p.2)
  let results :=
    match options.filter with
    | some f => results.filter (fun d => matchesFilter d f)
    | none => results
  let results :=
    match options.sort with
    | some sl => results.mergeSort (fun a b => sortCmp sl a b ≤ 0)
    | none => results
  let results :=
    match options.skip with
    | some n => if n = 0 then results else results.drop n
    | none => results
  match options.limit with
  | some n => if n = 0 then results else results.take n
  | none => results

/-- Source `SecureCollection.loadFromLog`: apply one log entry to the in-memory
state during replay; `INSERT`/`UPDATE` set the data map and reindex,
`DELETE` unindexes (when the document exists) and removes, envelope ops do
nothing. -/
def loadFromLog (name : String) (data : List (String × Value)) (idx : IndexMgr)
    (entry : LogEntry) : List (String × Value) × IndexMgr :=
  if entry.collection ≠ name then (data, idx)
  else
    match entry.op with
    | .INSERT | .UPDATE =>
      let d := entry.data.getD .undef
      (aset data entry.id d, indexDocument idx name entry.id d)
    | .DELETE =>
      let idx :=
        match alookup data entry.id with
        | some oldDoc => removeDocument idx name entry.id oldDoc
        | none => idx
      (adel data entry.id, idx)
    | _ => (data, idx)

/-! ## Log replay at database initialization (src/core/database.ts,
`LmcsDB.initialize`)

After `recover()`, the database streams the log and feeds every entry
whose collection does not start with `_` to the (lazily created)
collection's `loadFromLog`; there is no filtering on the entry's `txId`. -/

structure DBState where
  collections : List (String × List (String × Value))
  idx : IndexMgr

def replayStep (st : DBState) (entry : LogEntry) : DBState :=
  if strStartsWith entry.collection "_" then st
  else
    let data := (alookup st.collections entry.collection).getD []
    let (data', idx') := loadFromLog entry.collection data st.idx entry
    { collections := aset st.collections entry.collection data', idx := idx' }

def replayLog (log : List LogEntry) : DBState :=
  log.foldl replayStep { collections := [], idx := emptyIndexMgr }

/-- The document stored under `id` in collection `c` after replay. -/
def replayedDoc (log : List LogEntry) (c id : String) : Option Value :=
  match alookup (replayLog log).collections c with
  | some data => alookup data id
  | none => none

/-! ## AOLStorage, entry level (src/storage/aol.ts)

`BufStorage` models the storage as the entry sequence it holds: `buffer`
is the in-memory write buffer, `disk` the flushed entries.  The SHA-256 of
a serialized entry is abstracted as a hash function `chk` (the engine only
ever compares its outputs); clearing the `checksum` field before hashing
models the source's `delete entryForChecksum.checksum`. -/

def clearChecksum (e : LogEntry) : LogEntry := { e with checksum := "" }

/-- Source `AOLStorage.append`'s checksum discipline: when enabled, store the hash
of the entry with its checksum cleared. -/
def applyChecksum (chk : LogEntry → String) (enable : Bool) (e : LogEntry) : LogEntry :=
  if enable then { e with checksum := chk (clearChecksum e) } else e

structure BufStorage where
  buffer : List LogEntry
  disk : List LogEntry
  bufferSize : Nat
  enableChecksums : Bool

/-- Source `AOLStorage.flush`: nothing to do on an empty buffer; otherwise append
the buffered entries to the file and clear the buffer. -/
def bsFlush (st : BufStorage) : BufStorage :=
  if st.buffer.isEmpty then st
  else { st with buffer := [], disk := st.disk ++ st.buffer }

/-- Source `AOLStorage.append`: stamp the checksum, push to the buffer, flush when
the buffer reaches `bufferSize`.  No other code path flushes. -/
def bsAppend (chk : LogEntry → String) (st : BufStorage) (e : LogEntry) : BufStorage :=
  let e := applyChecksum chk st.enableChecksums e
  let st := { st with buffer := st.buffer ++ [e] }
  if st.buffer.length ≥ st.bufferSize then bsFlush st else st

/-- Source `AOLStorage.readStream`: flush, then yield the entries on disk,
skipping (checksums on) entries whose non-empty stored checksum does not
match the recomputed one. -/
def bsRead (chk : LogEntry → String) (st : BufStorage) : List LogEntry × BufStorage :=
  let st := bsFlush st
  (st.disk.filter
     (fun e => !(st.enableChecksums && e.checksum ≠ "" && chk (clearChecksum e) ≠ e.checksum)),
   st)

/-! ## TransactionManager (src/core/transaction.ts) -/

inductive TxStatus where
  | pending
  | committed
  | aborted
  deriving DecidableEq, Repr

inductive OpType where
  | insert
  | update
  | delete
  deriving DecidableEq, Repr

structure Operation where
  type : OpType
  collection : String
  id : String
  previousData : Option Value := none
  newData : Option Value := none

structure Transaction where
  id : String
  operations : List Operation
  status : TxStatus
  timestamp : Nat

/-- Transaction-manager state: the `activeTransactions` map plus the
storage it appends to. -/
structure TMState where
  active : List (String × Transaction)
  storage : BufStorage

/-- Source `TransactionManager.begin`: record the pending transaction and append
a `BEGIN` envelope. -/
def beginRun (chk : LogEntry → String) (st : TMState) (txId : String) (now : Nat) : TMState :=
  let tx : Transaction := { id := txId, operations := [], status := .pending, timestamp := now }
  { active := aset st.active txId tx,
    storage := bsAppend chk st.storage
      { op := .BEGIN, collection := "_transactions", id := txId,
        timestamp := now, txId := some txId } }

/-- Source `TransactionManager.addOperation`: push onto the in-memory operation
list; `TransactionError` when the transaction is unknown or no longer
pending. -/
def addOperationRun (st : TMState) (txId : String) (op : Operation) : TMState × Option Err :=
  match alookup st.active txId with
  | none => (st, some .transactionError)
  | some tx =>
    if tx.status ≠ .pending then (st, some .transactionError)
    else
      ({ st with active := aset st.active txId { tx with operations := tx.operations ++ [op] } },
       none)

def opToLogOp : OpType → LogOp
  | .insert => .INSERT
  | .update => .UPDATE
  | .delete => .DELETE

/-- Source `TransactionManager.commit`: append every operation as a real entry
carrying the `txId`, then the `COMMIT` envelope, and drop the transaction
from the active map.  The storage is never flushed here. -/
def commitRun (chk : LogEntry → String) (st : TMState) (txId : String) (now : Nat) :
    TMState × Option Err :=
  match alookup st.active txId with
  | none => (st, some .transactionError)
  | some tx =>
    let storage := tx.operations.foldl
      (fun s op =>
        bsAppend chk s
          { op := opToLogOp op.type, collection := op.collection, id := op.id,
            data := some (op.newData.getD (.obj [])), timestamp := now, txId := some txId })
      st.storage
    let storage := bsAppend chk storage
      { op := .COMMIT, collection := "_transactions", id := txId,
        timestamp := now, txId := some txId }
    ({ active := adel st.active txId, storage := storage }, none)

/-- Source `TransactionManager.rollback`: an unknown id returns at once; a known
one gets a `ROLLBACK` envelope appended and is dropped from the active
map.  No path throws. -/
def rollbackRun (chk : LogEntry → String) (st : TMState) (txId : String) (now : Nat) :
    TMState × Option Err :=
  match alookup st.active txId with
  | none => (st, none)
  | some _ =>
    let storage := bsAppend chk st.storage
      { op := .ROLLBACK, collection := "_transactions", id := txId,
        timestamp := now, txId := some txId }
    ({ active := adel st.active txId, storage := storage }, none)

/-- Source `TransactionManager.recover`: stream the log, build the map of `BEGIN`s
with no matching `COMMIT`/`ROLLBACK`, then call `rollback` on each id.  The
active map is whatever the manager holds (empty right after
construction). -/
def recoverRun (chk : LogEntry → String) (st : TMState) (now : Nat) : TMState :=
  let (entries, storage) := bsRead chk st.storage
  let pendingTxs := entries.foldl
    (fun m e =>
      if e.collection ≠ "_transactions" then m
      else
        match e.op with
        | .BEGIN =>
          aset m e.id
            ({ id := e.id, operations := [], status := .pending,
               timestamp := e.timestamp } : Transaction)
        | .COMMIT | .ROLLBACK => adel m e.id
        | _ => m)
    ([] : List (String × Transaction))
  pendingTxs.foldl (fun s p => (rollbackRun chk s p.1 now).fst) { st with storage := storage }

/-! ## AOLStorage, byte level (src/storage/aol.ts)

`AolFile` models the actual file: `content` is the bytes, and
`entriesOnDisk` is the ghost sequence of entries whose serialized lines
were written into `content` (the view `readStream` decodes; each line's
JSON round-trips, so the two are kept in lockstep).  `serEntry` models
`JSON.stringify` of an entry as an injective newline-free rendering.
Encryption is off in the scenarios under study. -/

def opName : LogOp → String
  | .INSERT => "INSERT"
  | .UPDATE => "UPDATE"
  | .DELETE => "DELETE"
  | .BEGIN => "BEGIN"
  | .COMMIT => "COMMIT"
  | .ROLLBACK => "ROLLBACK"

def serEntry (e : LogEntry) : String :=
  opName e.op ++ "|" ++ e.collection ++ "|" ++ e.id ++ "|" ++
    (match e.data with | some v => stringifyValue v | none => "") ++ "|" ++
    e.checksum ++ "|" ++ toString e.timestamp ++ "|" ++ (e.txId.getD "")

structure AolFile where
  buffer : List LogEntry
  content : String
  entriesOnDisk : List LogEntry
  bufferSize : Nat
  enableChecksums : Bool

/-- Source `AOLStorage.flush` at the byte level:
`appendFile(filePath, lines.join("\n") + "\n")` — the batch gets one
trailing newline. -/
def afFlush (st : AolFile) : AolFile :=
  if st.buffer.isEmpty then st
  else
    { st with
        buffer := [],
        content := st.content ++ String.intercalate "\n" (st.buffer.map serEntry) ++ "\n",
        entriesOnDisk := st.entriesOnDisk ++ st.buffer }

def afAppend (chk : LogEntry → String) (st : AolFile) (e : LogEntry) : AolFile :=
  let e := applyChecksum chk st.enableChecksums e
  let st := { st with buffer := st.buffer ++ [e] }
  if st.buffer.length ≥ st.bufferSize then afFlush st else st

/-- One step of compaction's state map, keyed `collection:id`: `DELETE`
removes, `INSERT`/`UPDATE` set, envelope ops are discarded. -/
def compactStep (state : List (String × LogEntry)) (e : LogEntry) : List (String × LogEntry) :=
  let key := e.collection ++ ":" ++ e.id
  if e.op = .DELETE then adel state key
  else if e.op ≠ .BEGIN ∧ e.op ≠ .COMMIT ∧ e.op ≠ .ROLLBACK then aset state key e
  else state

/-- The surviving entries of compaction: `Array.from(state.values())`. -/
def compactState (entries : List LogEntry) : List LogEntry :=
  (entries.foldl compactStep []).map (fun p => p.2)

/-- Source `AOLStorage.compact`: flush, fold the streamed entries into the state
map, then either truncate the file to zero length (no survivors) or write
`lines.join("\n")` — with no trailing newline — over the live file. -/
def afCompact (st : AolFile) : AolFile :=
  let st := afFlush st
  let entries := compactState st.entriesOnDisk
  if entries.isEmpty then { st with content := "", entriesOnDisk := [] }
  else
    { st with
        content := String.intercalate "\n" (entries.map serEntry),
        entriesOnDisk := entries }

/-- The decoder's view of the file: `content.split("\n").filter(l => l.trim())`. -/
def aolLines (content : String) : List String :=
  (splitOnChar '\n' content).filter (fun l => strTrim l ≠ "")

/-- The AOL file-format invariant of the spec: the file is exactly the
concatenation of the serialized entries, one per line. -/
def wellFormedAol (content : String) (entries : List LogEntry) : Prop :=
  content = String.join (entries.map (fun e => serEntry e ++ "\n"))

/-! ## CryptoVault (crypto/vault.ts)

The vault is embedded parametrically over the external primitives it
calls: a key-derivation function (`pbkdf2Sync`, fixed SHA-256) and an
authenticated cipher (`aes-256-gcm`) together with the contract those
primitives satisfy — decryption with the key used for encryption returns
the plaintext, and a validly produced (ciphertext, tag) pair authenticates
under no other key.  Keys, salts and IVs are byte strings modelled as
`String`; `Buffer.toString('hex')` is an explicit encoding parameter. -/

structure KdfFun where
  /-- `pbkdf2Sync(password, salt, iterations, keylen, 'sha256')`. -/
  pbkdf2 : String → String → Nat → Nat → String

structure GcmCipher where
  /-- `createCipheriv('aes-256-gcm', key, iv)`; returns (ciphertext, authTag). -/
  enc : String → String → String → String × String
  /-- `createDecipheriv` + `setAuthTag` + `final`: `none` is the thrown
  auth failure. -/
  dec : String → String → String → String → Option String
  /-- GCM correctness: decrypting with the encrypting key succeeds. -/
  dec_enc : ∀ k iv m, dec k iv (enc k iv m).1 (enc k iv m).2 = some m
  /-- GCM authentication: a validly produced pair only decrypts under the
  key that produced it. -/
  auth : ∀ k k' iv m, dec k' iv (enc k iv m).1 (enc k iv m).2 ≠ none → k' = k

structure EncryptedPayload where
  ciphertext : String
  iv : String
  authTag : String
  salt : String
  iterations : Nat
  version : Nat

/-- The constructor-derived state of `CryptoVault`: the stored salt and
`derivedKey = pbkdf2Sync(password, salt, 100000, 32, 'sha256')`. -/
structure VaultState where
  salt : String
  derivedKey : String

def vaultInit (kdf : KdfFun) (password salt : String) : VaultState :=
  { salt := salt, derivedKey := kdf.pbkdf2 password salt 100000 32 }

/-- Source `CryptoVault.encrypt`: AES-GCM under `derivedKey` with a fresh IV,
emitting the envelope carrying the vault's salt. -/
def vaultEncrypt (g : GcmCipher) (st : VaultState) (iv data : String) : EncryptedPayload :=
  let ct := g.enc st.derivedKey iv data
  { ciphertext := ct.1, iv := iv, authTag := ct.2, salt := st.salt,
    iterations := 100000, version := 1 }

/-- Source `CryptoVault.decrypt`: the decryption key is re-derived as
`pbkdf2Sync(this.derivedKey.toString('hex'), payload.salt, payload.iterations, 32)`
— from the hex of the derived key, not from the password — and the
payload is then decrypted under it. -/
def vaultDecrypt (g : GcmCipher) (kdf : KdfFun) (hexEnc : String → String)
    (st : VaultState) (p : EncryptedPayload) : Option String :=
  let key := kdf.pbkdf2 (hexEnc st.derivedKey) p.salt p.iterations 32
  g.dec key p.iv p.ciphertext p.authTag

/-! ## The unique-index invariant (spec, §3 and §8) -/

/-- The spec's invariant: a unique single-field index on field `f` of the
collection admits at most one document per defined value of `f`. -/
def uniqueInv (st : CollState) : Prop :=
  ∀ d ∈ getIndexDefinitions st.idx st.name, d.unique = true →
    ∀ f, d.fields = [f] →
      ∀ i1 i2 d1 d2, alookup st.data i1 = some d1 → alookup st.data i2 = some d2 →
        getNestedValue d1 f ≠ .undef →
        getNestedValue d1 f = getNestedValue d2 f → i1 = i2

/-- The index structures reflect the data map: every document's defined
value under a unique index is recorded, with the document's id, in that
index's value map.  `SecureCollection.insert` consults the index (not the
data map) for its unique check, so its correctness rests on this
coherence. -/
def idxCoherent (st : CollState) : Prop :=
  ∀ d ∈ getIndexDefinitions st.idx st.name, d.unique = true →
    ∀ f, d.fields = [f] →
      ∀ i dc, alookup st.data i = some dc →
        getNestedValue dc f ≠ .undef →
        ∃ colIdx m s, alookup st.idx.indexes st.name = some colIdx ∧
          alookup colIdx f = some m ∧
          alookup m (stringifyValue (getNestedValue dc f)) = some s ∧ i ∈ s

/-- Every index of the collection is single-field with a plain (no `:`
and no `.`) field name — the shape `createIndex` produces for single
plain fields — and the per-collection index map has no duplicate keys. -/
def wellShapedIdx (st : CollState) : Prop :=
  (∀ d ∈ getIndexDefinitions st.idx st.name, d.unique = true →
      d.fields = [d.name] ∧ splitOnChar '.' d.name = [d.name]) ∧
  (∀ colIdx, alookup st.idx.indexes st.name = some colIdx →
      (∀ p ∈ colIdx, splitOnChar ':' p.1 = [p.1] ∧ splitOnChar '.' p.1 = [p.1]) ∧
      (colIdx.map Prod.fst).Nodup)

/-- The compaction key of an entry. -/
def keyOf (e : LogEntry) : String := e.collection ++ ":" ++ e.id

/-- The last `INSERT`/`UPDATE`/`DELETE` entry for a compaction key. -/
def lastDataFor (entries : List LogEntry) (k : String) : Option LogEntry :=
  (entries.filter (fun e => e.op.isData && keyOf e == k)).getLast?

/-! ## Concrete instances used by the claims -/

/-- A product document as seeded by the spec's query scenario. -/
def c7prod (name : String) (price : Int) : Value :=
  .obj [("_id", .str name), ("name", .str name), ("price", .num price)]

/-- Five products with prices 1, 2, 999, 1999, 20000. -/
def c7state : CollState :=
  { name := "products",
    data := [("iPhone", c7prod "iPhone" 999), ("MacBook", c7prod "MacBook" 1999),
             ("Banana", c7prod "Banana" 1), ("Orange", c7prod "Orange" 2),
             ("Car", c7prod "Car" 20000)],
    idx := emptyIndexMgr,
    log := [] }

/-- The operator-map filter of the claim. -/
def c7filter : Value := .obj [("price", .obj [("$gt", .num 1000)])]

/-- A trivial hash stand-in for configurations with checksums disabled. -/
def chkOff : LogEntry → String := fun _ => ""

/-- A transaction manager over an empty storage with no active
transactions. -/
def c10state : TMState :=
  { active := [],
    storage := { buffer := [], disk := [], bufferSize := 100, enableChecksums := false } }

/-- A freshly constructed manager (empty active map) over a log holding a
lone `BEGIN` for `t1` — the reopen-after-crash situation `recover` is for. -/
def c3begin : LogEntry :=
  { op := .BEGIN, collection := "_transactions", id := "t1", timestamp := 1, txId := some "t1" }

def c3state : TMState :=
  { active := [],
    storage := { buffer := [], disk := [c3begin], bufferSize := 100, enableChecksums := false } }

/-- A log holding `BEGIN(t1)` followed by an `INSERT` carrying `txId = t1`
and no `COMMIT` — the torn-commit shape recovery is supposed to hide. -/
def c1doc : Value := .obj [("_id", .str "u1"), ("name", .str "Alice")]

def c1begin : LogEntry :=
  { op := .BEGIN, collection := "_transactions", id := "t1", timestamp := 1, txId := some "t1" }

def c1log : List LogEntry :=
  [c1begin,
   { op := .INSERT, collection := "users", id := "u1", data := some c1doc,
     timestamp := 2, txId := some "t1" }]

/-- A concrete instance of the GCM contract: the toy cipher transports the
plaintext and tags it with the key, so decryption succeeds exactly under
the encrypting key. -/
def gcmToy : GcmCipher where
  enc := fun k _iv m => (m, k)
  dec := fun k _iv ct tag => if tag = k then some ct else none
  dec_enc := by
    intro k iv m
    simp
  auth := by
    intro k k' iv m h
    by_cases hk : k = k'
    · exact hk.symm
    · simp [hk] at h

/-- A concrete injective key-derivation stand-in. -/
def kdfToy : KdfFun where
  pbkdf2 := fun password salt _iter _len => "K(" ++ password ++ "," ++ salt ++ ")"

/-- A concrete injective hex-encoding stand-in. -/
def hexToy : String → String := fun s => "hex:" ++ s

/-- Two inserted documents: one survives compaction, the other is
appended and flushed right after it. -/
def c5e1 : LogEntry :=
  { op := .INSERT, collection := "users", id := "u1",
    data := some (.obj [("_id", .str "u1")]), timestamp := 1 }

def c5e2 : LogEntry :=
  { op := .INSERT, collection := "users", id := "u2",
    data := some (.obj [("_id", .str "u2")]), timestamp := 2 }

def c5file : AolFile :=
  { buffer := [], content := "", entriesOnDisk := [], bufferSize := 100,
    enableChecksums := false }

/-- Append + flush one document, compact, then append + flush a second
document — the sequence of the claim. -/
def c5final : AolFile :=
  afFlush (afAppend chkOff (afCompact (afFlush (afAppend chkOff c5file c5e1))) c5e2)

/-- A unique single-field index on `email`. -/
def emailDef : IndexDefinition :=
  { fields := ["email"], unique := true, sparse := false, name := "email" }

/-- Two users with distinct emails, with the `email` unique index built
and coherent with the data. -/
def c9docA : Value := .obj [("_id", .str "a"), ("email", .str "a@x")]
def c9docB : Value := .obj [("_id", .str "b"), ("email", .str "b@x")]

def c9idx : IndexMgr :=
  { indexes := [("users", [("email", [("\"a@x\"", ["a"]), ("\"b@x\"", ["b"])])])],
    indexDefs := [("users", [emailDef])] }

def c9before : CollState :=
  { name := "users", data := [("a", c9docA), ("b", c9docB)], idx := c9idx, log := [] }

/-- The update that steals `a`'s email for `b`. -/
def c9filter : Value := .obj [("_id", .str "b")]
def c9updates : Value := .obj [("email", .str "a@x")]

/-- Document `b` after the email-stealing update. -/
def c9docB2 : Value := .obj [("_id", .str "b"), ("email", .str "a@x")]

/-- The state `update` produces: both documents now hold `a@x` under the
unique `email` index. -/
def c9after : CollState :=
  { name := "users",
    data := [("a", c9docA), ("b", c9docB2)],
    idx := { indexes := [("users", [("email", [("\"a@x\"", ["a", "b"])])])],
             indexDefs := [("users", [emailDef])] },
    log := [{ op := .UPDATE, collection := "users", id := "b", data := some c9docB2,
              timestamp := 5, txId := none }] }

/-- An empty collection carrying the `email` unique index — the concrete
instance on which the preservation theorem's hypotheses are discharged. -/
def c9empty : CollState :=
  { name := "users",
    data := [],
    idx := { indexes := [("users", [("email", [])])],
             indexDefs := [("users", [emailDef])] },
    log := [] }

def c9newDoc : Value := .obj [("_id", .str "n"), ("email", .str "n@x")]

/-- A collection holding one document, target of a duplicate-id insert. -/
def c8doc : Value := .obj [("_id", .str "u1"), ("email", .str "a@x")]

def c8state : CollState :=
  { name := "users", data := [("u1", c8doc)], idx := emptyIndexMgr, log := [] }

def c8dup : Value := .obj [("_id", .str "u1"), ("email", .str "b@x")]

/-- An AOL whose buffer holds a lone transaction envelope: after the
flush inside `compact`, no data entry survives and the state map is
empty. -/
def c6state : AolFile :=
  { buffer := [{ op := .BEGIN, collection := "_transactions", id := "t9",
                 timestamp := 3, txId := some "t9" }],
    content := "", entriesOnDisk := [], bufferSize := 100, enableChecksums := false }

/-- A pending transaction holding one update operation, with its `BEGIN`
envelope still in the write buffer and the default buffer size. -/
def c4op : Operation :=
  { type := .update, collection := "accounts", id := "a",
    newData := some (.obj [("balance", .num 0)]) }

def c4tx : Transaction :=
  { id := "t1", operations := [c4op], status := .pending, timestamp := 1 }

def c4state : TMState :=
  { active := [("t1", c4tx)],
    storage :=
      { buffer := [{ op := .BEGIN, collection := "_transactions", id := "t1",
                     timestamp := 1, txId := some "t1" }],
        disk := [], bufferSize := 100, enableChecksums := false } }

/-! ## Theorems -/

/-- C7: the claim states that `findAll` with the operator-map filter
`price: ($gt: 1000)` returns exactly the documents with price strictly
greater than 1000 — two of the five seeded products.  On the code, a
field key whose value is an operator map falls through `matchesFilter`'s
strict-equality branch, where a number is never `===` an object, so
`findAll` returns no documents at all, even though two of the five do
have price > 1000. -/
theorem claim7_operator_map_filter_matches_nothing :
    findAll c7state { filter := some c7filter } = [] ∧
    (c7state.data.filter fun p => jsGt (getNestedValue p.2 "price") (.num 1000)).length = 2 := by
  constructor
  · simp [findAll, c7state, c7prod, c7filter, matchesFilter, matchesEntries, jsStrictEq,
      getNestedValue, getNestedValue.go, splitOnChar, splitOnChar.go, alookup, strStartsWith]
  · simp [c7state, c7prod, jsGt, getNestedValue, getNestedValue.go, splitOnChar,
      splitOnChar.go, alookup]

/-- C10: `TransactionManager.rollback` with an id that is not in the
active map — an unknown id, or one already removed by `commit` or a
previous `rollback` — returns normally with no error, appends nothing to
the storage, and leaves the state untouched. -/
theorem claim10_rollback_unknown_id_noop (chk : LogEntry → String) (st : TMState)
    (txId : String) (now : Nat) (h : alookup st.active txId = none) :
    rollbackRun chk st txId now = (st, none) := by
  simp [rollbackRun, h]

theorem claim10_rollback_unknown_id_noop_witness :
    alookup c10state.active "tx-missing" = none ∧
    rollbackRun chkOff c10state "tx-missing" 5 = (c10state, none) :=
  ⟨rfl, claim10_rollback_unknown_id_noop chkOff c10state "tx-missing" 5 rfl⟩

/-- C3: the claim states that after `recover()` every transaction with a
`BEGIN` but no `COMMIT`/`ROLLBACK` gets a synthetic `ROLLBACK` envelope
appended.  On the code, `recover` calls `rollback(txId)` for each such id,
but `rollback` looks the id up in `activeTransactions` — empty in a
freshly constructed manager — and returns without appending, so recovery
leaves the log exactly as it found it: no `ROLLBACK` for `t1` exists
anywhere in the state. -/
theorem claim3_recover_appends_no_rollback :
    recoverRun chkOff c3state 9 = c3state ∧
    ∀ e ∈ c3state.storage.disk, e.op ≠ .ROLLBACK := by
  exact ⟨rfl, by decide⟩

/-- Appending one entry to a buffer strictly below capacity does not
flush. -/
theorem bsAppend_below (chk : LogEntry → String) (e : LogEntry) (st : BufStorage)
    (h : st.buffer.length + 1 < st.bufferSize) :
    bsAppend chk st e =
      { st with buffer := st.buffer ++ [applyChecksum chk st.enableChecksums e] } := by
  simp only [bsAppend]
  rw [if_neg]
  simp only [List.length_append, List.length_cons, List.length_nil]
  omega

/-- Folding appends over a buffer that stays strictly below capacity
leaves the disk untouched and only grows the buffer. -/
theorem foldl_bsAppend_below {α : Type} (chk : LogEntry → String) (g : α → LogEntry)
    (l : List α) (st : BufStorage) (h : st.buffer.length + l.length < st.bufferSize) :
    (l.foldl (fun s a => bsAppend chk s (g a)) st).disk = st.disk ∧
    (l.foldl (fun s a => bsAppend chk s (g a)) st).buffer.length
      = st.buffer.length + l.length ∧
    (l.foldl (fun s a => bsAppend chk s (g a)) st).bufferSize = st.bufferSize := by
  induction l generalizing st with
  | nil => simp
  | cons a rest ih =>
    simp only [List.foldl_cons, List.length_cons] at h ⊢
    have hb : st.buffer.length + 1 < st.bufferSize := by omega
    rw [bsAppend_below chk (g a) st hb]
    have hrec := ih { st with buffer := st.buffer ++ [applyChecksum chk st.enableChecksums (g a)] }
      (by simp; omega)
    obtain ⟨hd, hbuf, hsz⟩ := hrec
    refine ⟨hd, ?_, hsz⟩
    simp at hbuf
    omega

/-- C4 (amended): `TransactionManager.commit` appends the transaction's
operation entries and the `COMMIT` envelope through `storage.append` and
never flushes; as long as the write buffer stays strictly below
`bufferSize`, commit returns with the disk exactly as it was and all the
new entries — the `COMMIT` envelope included — still sitting in the
in-memory buffer. -/
theorem claim4_commit_buffers_without_flush (chk : LogEntry → String) (st : TMState)
    (txId : String) (now : Nat) (tx : Transaction)
    (htx : alookup st.active txId = some tx)
    (h : st.storage.buffer.length + tx.operations.length + 1 < st.storage.bufferSize) :
    (commitRun chk st txId now).snd = none ∧
    (commitRun chk st txId now).fst.storage.disk = st.storage.disk ∧
    (commitRun chk st txId now).fst.storage.buffer.length
      = st.storage.buffer.length + tx.operations.length + 1 := by
  simp only [commitRun, htx]
  obtain ⟨hd, hbuf, hsz⟩ := foldl_bsAppend_below chk
    (fun op => ({ op := opToLogOp op.type, collection := op.collection, id := op.id,
                  data := some (op.newData.getD (.obj [])), timestamp := now,
                  txId := some txId } : LogEntry))
    tx.operations st.storage (by omega)
  set mid := tx.operations.foldl
    (fun s op => bsAppend chk s
      { op := opToLogOp op.type, collection := op.collection, id := op.id,
        data := some (op.newData.getD (.obj [])), timestamp := now, txId := some txId })
    st.storage with hmid
  have hb : mid.buffer.length + 1 < mid.bufferSize := by
    rw [hbuf, hsz]
    omega
  rw [bsAppend_below chk _ mid hb]
  refine ⟨by simp, hd, ?_⟩
  simp only [List.length_append, List.length_cons, List.length_nil]
  omega

theorem claim4_commit_buffers_without_flush_witness :
    alookup c4state.active "t1" = some c4tx ∧
    c4state.storage.buffer.length + c4tx.operations.length + 1 < c4state.storage.bufferSize ∧
    (commitRun chkOff c4state "t1" 7).snd = none ∧
    (commitRun chkOff c4state "t1" 7).fst.storage.disk = c4state.storage.disk ∧
    (commitRun chkOff c4state "t1" 7).fst.storage.buffer.length
      = c4state.storage.buffer.length + c4tx.operations.length + 1 := by
  refine ⟨rfl, by decide, ?_⟩
  exact claim4_commit_buffers_without_flush chkOff c4state "t1" 7 c4tx rfl (by decide)

/-- Membership in a JS-map `set` result is membership in the old map or
the new pair. -/
theorem mem_aset_cases {α : Type} (m : List (String × α)) (k : String) (v : α)
    (x : String × α) (hx : x ∈ aset m k v) : x ∈ m ∨ x = (k, v) := by
  induction m with
  | nil => simpa [aset] using hx
  | cons hd tl ih =>
    obtain ⟨a, b⟩ := hd
    by_cases h : a = k
    · subst h
      simp [aset] at hx
      rcases hx with h1 | h1
      · exact Or.inr (by simp [h1])
      · exact Or.inl (List.mem_cons_of_mem _ h1)
    · simp [aset, h] at hx
      rcases hx with h1 | h1
      · exact Or.inl (by simp [h1])
      · rcases ih h1 with h2 | h2
        · exact Or.inl (List.mem_cons_of_mem _ h2)
        · exact Or.inr h2

/-- The compaction fold holds, at each key, exactly the last data entry
for that key — unless that last data operation is a `DELETE`, in which
case the key is absent. -/
theorem compactFold_lookup (entries : List LogEntry) (k : String) :
    alookup (entries.foldl compactStep []) k =
      (match lastDataFor entries k with
       | some e => if e.op = .DELETE then none else some e
       | none => none) := by
  induction entries using List.reverseRecOn with
  | nil => simp [lastDataFor, alookup]
  | append_singleton l e ih =>
    rw [List.foldl_append]
    simp only [List.foldl_cons, List.foldl_nil]
    have hfilter : lastDataFor (l ++ [e]) k =
        ((l.filter (fun x => x.op.isData && keyOf x == k)) ++
         (if e.op.isData && keyOf e == k then [e] else [])).getLast? := by
      simp [lastDataFor, List.filter_append]
      split <;> simp
    by_cases hk : keyOf e = k
    · cases hop : e.op with
      | INSERT =>
        have hstep : compactStep (List.foldl compactStep [] l) e
            = aset (List.foldl compactStep [] l) (keyOf e) e := by
          simp [compactStep, hop, keyOf]
        rw [hstep, hk, alookup_aset_self, hfilter]
        simp [hop, LogOp.isData, hk, List.getLast?_concat]
      | UPDATE =>
        have hstep : compactStep (List.foldl compactStep [] l) e
            = aset (List.foldl compactStep [] l) (keyOf e) e := by
          simp [compactStep, hop, keyOf]
        rw [hstep, hk, alookup_aset_self, hfilter]
        simp [hop, LogOp.isData, hk, List.getLast?_concat]
      | DELETE =>
        have hstep : compactStep (List.foldl compactStep [] l) e
            = adel (List.foldl compactStep [] l) (keyOf e) := by
          simp [compactStep, hop, keyOf]
        rw [hstep, hk, alookup_adel_self, hfilter]
        simp [hop, LogOp.isData, hk, List.getLast?_concat]
      | BEGIN =>
        have hstep : compactStep (List.foldl compactStep [] l) e
            = List.foldl compactStep [] l := by
          simp [compactStep, hop]
        have hlast : lastDataFor (l ++ [e]) k = lastDataFor l k := by
          simp [lastDataFor, List.filter_append, hop, LogOp.isData]
        rw [hstep, hlast]
        exact ih
      | COMMIT =>
        have hstep : compactStep (List.foldl compactStep [] l) e
            = List.foldl compactStep [] l := by
          simp [compactStep, hop]
        have hlast : lastDataFor (l ++ [e]) k = lastDataFor l k := by
          simp [lastDataFor, List.filter_append, hop, LogOp.isData]
        rw [hstep, hlast]
        exact ih
      | ROLLBACK =>
        have hstep : compactStep (List.foldl compactStep [] l) e
            = List.foldl compactStep [] l := by
          simp [compactStep, hop]
        have hlast : lastDataFor (l ++ [e]) k = lastDataFor l k := by
          simp [lastDataFor, List.filter_append, hop, LogOp.isData]
        rw [hstep, hlast]
        exact ih
    · have hlast : lastDataFor (l ++ [e]) k = lastDataFor l k := by
        simp [lastDataFor, List.filter_append, hk]
      cases hop : e.op with
      | INSERT =>
        have hstep : compactStep (List.foldl compactStep [] l) e
            = aset (List.foldl compactStep [] l) (keyOf e) e := by
          simp [compactStep, hop, keyOf]
        rw [hstep, alookup_aset_ne _ _ _ _ (Ne.symm hk), hlast]
        exact ih
      | UPDATE =>
        have hstep : compactStep (List.foldl compactStep [] l) e
            = aset (List.foldl compactStep [] l) (keyOf e) e := by
          simp [compactStep, hop, keyOf]
        rw [hstep, alookup_aset_ne _ _ _ _ (Ne.symm hk), hlast]
        exact ih
      | DELETE =>
        have hstep : compactStep (List.foldl compactStep [] l) e
            = adel (List.foldl compactStep [] l) (keyOf e) := by
          simp [compactStep, hop, keyOf]
        rw [hstep, alookup_adel_ne _ _ _ (Ne.symm hk), hlast]
        exact ih
      | BEGIN =>
        have hstep : compactStep (List.foldl compactStep [] l) e
            = List.foldl compactStep [] l := by
          simp [compactStep, hop]
        rw [hstep, hlast]
        exact ih
      | COMMIT =>
        have hstep : compactStep (List.foldl compactStep [] l) e
            = List.foldl compactStep [] l := by
          simp [compactStep, hop]
        rw [hstep, hlast]
        exact ih
      | ROLLBACK =>
        have hstep : compactStep (List.foldl compactStep [] l) e
            = List.foldl compactStep [] l := by
          simp [compactStep, hop]
        rw [hstep, hlast]
        exact ih

/-- Every value held by the compaction fold is an `INSERT` or `UPDATE`
entry: envelopes are never stored and `DELETE`s only remove. -/
theorem compactFold_ops (entries : List LogEntry) :
    ∀ p ∈ entries.foldl compactStep [], p.2.op = .INSERT ∨ p.2.op = .UPDATE := by
  induction entries using List.reverseRecOn with
  | nil => simp
  | append_singleton l e ih =>
    rw [List.foldl_append]
    simp only [List.foldl_cons, List.foldl_nil]
    intro p hp
    by_cases hdel : e.op = .DELETE
    · have hstep : compactStep (List.foldl compactStep [] l) e
          = adel (List.foldl compactStep [] l) (keyOf e) := by
        simp [compactStep, hdel, keyOf]
      rw [hstep] at hp
      exact ih p (List.mem_filter.mp hp).1
    · by_cases henv : e.op ≠ .BEGIN ∧ e.op ≠ .COMMIT ∧ e.op ≠ .ROLLBACK
      · have hstep : compactStep (List.foldl compactStep [] l) e
            = aset (List.foldl compactStep [] l) (keyOf e) e := by
          simp [compactStep, hdel, henv, keyOf]
        rw [hstep] at hp
        rcases mem_aset_cases _ _ _ _ hp with h1 | h1
        · exact ih p h1
        · subst h1
          cases hop : e.op <;> simp_all
      · have hstep : compactStep (List.foldl compactStep [] l) e
            = List.foldl compactStep [] l := by
          simp [compactStep, hdel, henv]
        rw [hstep] at hp
        exact ih p hp

/-- C6: `AOLStorage.compact` replaces the log with exactly the last
`INSERT`/`UPDATE` entry of every `collection:id` key whose latest data
operation is not a `DELETE` (the state-map fold realizes last-writer
state), all surviving entries are `INSERT`/`UPDATE` — every
`BEGIN`/`COMMIT`/`ROLLBACK` envelope is discarded — and when nothing
survives the live file is truncated to zero length, with no error
path. -/
theorem claim6_compact_last_writer_state (st : AolFile) :
    (∀ k, alookup ((afFlush st).entriesOnDisk.foldl compactStep []) k =
        (match lastDataFor (afFlush st).entriesOnDisk k with
         | some e => if e.op = .DELETE then none else some e
         | none => none)) ∧
    (∀ p ∈ compactState (afFlush st).entriesOnDisk, p.op = .INSERT ∨ p.op = .UPDATE) ∧
    (afCompact st).entriesOnDisk = compactState (afFlush st).entriesOnDisk ∧
    (compactState (afFlush st).entriesOnDisk = [] → (afCompact st).content = "") := by
  refine ⟨fun k => compactFold_lookup _ k, ?_, ?_, ?_⟩
  · intro p hp
    unfold compactState at hp
    obtain ⟨q, hq, rfl⟩ := List.mem_map.mp hp
    exact compactFold_ops _ q hq
  · unfold afCompact
    by_cases h : (compactState (afFlush st).entriesOnDisk).isEmpty
    · simp [h, List.isEmpty_iff.mp h]
    · simp [h]
  · intro h
    unfold afCompact
    simp [h]

theorem claim6_compact_last_writer_state_witness :
    compactState (afFlush c6state).entriesOnDisk = [] ∧
    (afCompact c6state).content = "" :=
  ⟨rfl, (claim6_compact_last_writer_state c6state).2.2.2 rfl⟩

/-- C8: `SecureCollection.insert` raises `ValidationError` exactly when
the resolved `_id` is already present in the data map or a unique index
holds the incoming document's defined indexed value; and whenever insert
errors, it returns with the collection state — data map, indexes and
appended log — exactly as it was: both checks precede the storage append
and the in-memory mutations. -/
theorem claim8_insert_error_leaves_state_unchanged (st : CollState) (doc : Value)
    (genId : String) (now : Nat) (txId : Option String) :
    ((insertRun st doc genId now txId).snd = some .validation ↔
      ((alookup st.data (resolveId doc genId)).isSome = true ∨
        uniqueViolation st (withId doc (resolveId doc genId)) = true)) ∧
    ((insertRun st doc genId now txId).snd ≠ none →
      (insertRun st doc genId now txId).fst = st) := by
  unfold insertRun
  by_cases h1 : (alookup st.data (resolveId doc genId)).isSome
  · simp [h1]
  · by_cases h2 : uniqueViolation st (withId doc (resolveId doc genId))
    · simp [h1, h2]
    · simp [h1, h2]

theorem claim8_insert_error_leaves_state_unchanged_witness :
    (insertRun c8state c8dup "gen" 5 none).snd = some .validation ∧
    (insertRun c8state c8dup "gen" 5 none).fst = c8state := by
  have h := claim8_insert_error_leaves_state_unchanged c8state c8dup "gen" 5 none
  have hsnd : (insertRun c8state c8dup "gen" 5 none).snd = some .validation :=
    h.1.mpr (Or.inl rfl)
  exact ⟨hsnd, h.2 (by simp [hsnd])⟩

/-- C9 (counterexample): the claim states that every collection
operation preserves the unique-index invariant, and in particular that an
update stealing another document's unique value is rejected.  On the
code, `SecureCollection.update` performs no unique-index check: starting
from two users with distinct emails under a coherent unique `email`
index, updating `b`'s email to `a`'s succeeds (count 1) and leaves two
documents sharing the defined value `a@x`. -/
theorem claim9_counterexample :
    uniqueInv c9before ∧
    updateRun c9before c9filter c9updates 5 none = (c9after, 1) ∧
    ¬ uniqueInv c9after := by
  refine ⟨?_, ?_, ?_⟩
  · intro d hd hu f hf i1 i2 d1 d2 h1 h2 hne heq
    simp [getIndexDefinitions, c9before, c9idx, alookup] at hd
    subst hd
    simp [emailDef] at hf
    subst hf
    have hmem : ∀ i dd, alookup c9before.data i = some dd →
        (i = "a" ∧ dd = c9docA) ∨ (i = "b" ∧ dd = c9docB) := by
      intro i dd h
      simp only [c9before, alookup] at h
      split_ifs at h with ha hb
      · exact Or.inl ⟨ha.symm, (Option.some.inj h).symm⟩
      · exact Or.inr ⟨hb.symm, (Option.some.inj h).symm⟩
    rcases hmem i1 d1 h1 with ⟨hi1, hd1⟩ | ⟨hi1, hd1⟩ <;>
      rcases hmem i2 d2 h2 with ⟨hi2, hd2⟩ | ⟨hi2, hd2⟩ <;>
      subst hd1 <;> subst hd2 <;> subst hi1 <;> subst hi2
    · rfl
    · simp [c9docA, c9docB, getNestedValue, getNestedValue.go, splitOnChar,
        splitOnChar.go, alookup] at heq
    · simp [c9docA, c9docB, getNestedValue, getNestedValue.go, splitOnChar,
        splitOnChar.go, alookup] at heq
    · rfl
  · simp [updateRun, c9before, c9after, c9filter, c9updates, c9idx, c9docA, c9docB,
      c9docB2, emailDef, matchesFilter, matchesEntries, jsStrictEq, getNestedValue,
      getNestedValue.go, splitOnChar, splitOnChar.go, alookup, strStartsWith,
      mergeUpdate, aset, adel, removeDocument, indexDocument, extractKeyValue,
      stringifyValue, stringifyFields]
  · intro hinv
    have := hinv emailDef
      (by simp [getIndexDefinitions, c9after, alookup])
      rfl "email" rfl "a" "b" c9docA c9docB2
      (by simp [c9after, alookup])
      (by simp [c9after, alookup])
      (by simp [c9docA, getNestedValue, getNestedValue.go, splitOnChar, splitOnChar.go, alookup])
      (by simp [c9docA, c9docB2, getNestedValue, getNestedValue.go, splitOnChar,
        splitOnChar.go, alookup])
    simp at this

/-- A single-field equality filter misses an index key other than its
field. -/
theorem extract_single_miss (f key : String) (v : Value)
    (h1 : splitOnChar ':' key = [key]) (h2 : splitOnChar '.' key = [key])
    (hne : key ≠ f) :
    extractKeyValue (.obj [(f, v)]) key = .undef := by
  simp [extractKeyValue, h1, getNestedValue, h2, getNestedValue.go, alookup, Ne.symm hne]

/-- A single-field equality filter extracts its own value at its own
field. -/
theorem extract_single_hit (f : String) (v : Value)
    (h1 : splitOnChar ':' f = [f]) (h2 : splitOnChar '.' f = [f]) :
    extractKeyValue (.obj [(f, v)]) f = v := by
  simp [extractKeyValue, h1, getNestedValue, h2, getNestedValue.go, alookup]

/-- Indexes over other plain fields contribute no candidates to a
single-field equality query. -/
theorem queryFold_skip (f : String) (v : Value)
    (l : List (String × List (String × List String))) (acc : List (List String))
    (hall : ∀ p ∈ l, p.1 ≠ f ∧ splitOnChar ':' p.1 = [p.1] ∧ splitOnChar '.' p.1 = [p.1]) :
    l.foldl (queryStep (.obj [(f, v)])) acc = acc := by
  induction l generalizing acc with
  | nil => rfl
  | cons p rest ih =>
    obtain ⟨hne, hk1, hk2⟩ := hall p (List.mem_cons_self _ _)
    rw [List.foldl_cons,
      show queryStep (.obj [(f, v)]) acc p = acc from by
        simp [queryStep, extract_single_miss f p.1 v hk1 hk2 hne]]
    exact ih _ (fun q hq => hall q (List.mem_cons_of_mem _ hq))

/-- Over well-shaped indexes, a single-field equality query's candidate
list is exactly the hit of the field's own index. -/
theorem queryFold_single (f : String) (v : Value)
    (l : List (String × List (String × List String)))
    (m : List (String × List String)) (s : List String) (acc : List (List String))
    (hkeys : ∀ p ∈ l, splitOnChar ':' p.1 = [p.1] ∧ splitOnChar '.' p.1 = [p.1])
    (hnodup : (l.map Prod.fst).Nodup)
    (hm : alookup l f = some m)
    (hv : v ≠ .undef)
    (hs : alookup m (stringifyValue v) = some s) (hsne : s ≠ []) :
    l.foldl (queryStep (.obj [(f, v)])) acc = acc ++ [s] := by
  revert hkeys hnodup hm
  induction l generalizing acc with
  | nil =>
    intro hkeys hnodup hm
    exact absurd hm (by simp [alookup])
  | cons p rest ih =>
    intro hkeys hnodup hm
    obtain ⟨k, mm⟩ := p
    rw [List.map_cons] at hnodup
    obtain ⟨hknotin, hndrest⟩ := List.nodup_cons.mp hnodup
    by_cases hk : k = f
    · subst hk
      have hmm : mm = m := by simpa [alookup] using hm
      subst hmm
      obtain ⟨hk1, hk2⟩ := hkeys (k, mm) (List.mem_cons_self _ _)
      have hx := extract_single_hit k v hk1 hk2
      have hstep : queryStep (.obj [(k, v)]) acc (k, mm) = acc ++ [s] := by
        cases v with
        | undef => exact absurd rfl hv
        | null => simp [queryStep, hx, hs, List.length_pos, hsne]
        | bool b => simp [queryStep, hx, hs, List.length_pos, hsne]
        | num n => simp [queryStep, hx, hs, List.length_pos, hsne]
        | str s2 => simp [queryStep, hx, hs, List.length_pos, hsne]
        | arr es => simp [queryStep, hx, hs, List.length_pos, hsne]
        | obj fs => simp [queryStep, hx, hs, List.length_pos, hsne]
      rw [List.foldl_cons, hstep]
      refine queryFold_skip k v rest _ (fun q hq => ?_)
      refine ⟨?_, (hkeys q (List.mem_cons_of_mem _ hq)).1,
        (hkeys q (List.mem_cons_of_mem _ hq)).2⟩
      intro hqf
      exact hknotin (List.mem_map.mpr ⟨q, hq, hqf⟩)
    · obtain ⟨hk1, hk2⟩ := hkeys (k, mm) (List.mem_cons_self _ _)
      have hstep : queryStep (.obj [(f, v)]) acc (k, mm) = acc := by
        simp [queryStep, extract_single_miss f k v hk1 hk2 hk]
      rw [List.foldl_cons, hstep]
      exact ih acc (fun q hq => hkeys q (List.mem_cons_of_mem _ hq)) hndrest
        (by simpa [alookup, hk] using hm)

/-- Over well-shaped indexes, a single-field equality query returns the
field's index hit. -/
theorem queryByIndex_single_hit (im : IndexMgr) (col f : String) (v : Value)
    (colIdx : List (String × List (String × List String)))
    (m : List (String × List String)) (s : List String)
    (hci : alookup im.indexes col = some colIdx)
    (hkeys : ∀ p ∈ colIdx, splitOnChar ':' p.1 = [p.1] ∧ splitOnChar '.' p.1 = [p.1])
    (hnodup : (colIdx.map Prod.fst).Nodup)
    (hm : alookup colIdx f = some m)
    (hv : v ≠ .undef)
    (hs : alookup m (stringifyValue v) = some s) (hsne : s ≠ []) :
    queryByIndex im col (.obj [(f, v)]) = some s := by
  unfold queryByIndex
  simp only [hci]
  rw [queryFold_single f v colIdx m s [] hkeys hnodup hm hv hs hsne]
  rfl

/-- The operation `indexDocument` never touches the definitions. -/
theorem indexDocument_indexDefs (im : IndexMgr) (c i : String) (d : Value) :
    (indexDocument im c i d).indexDefs = im.indexDefs := by
  unfold indexDocument
  cases alookup im.indexes c <;> rfl

/-- The operation `removeDocument` never touches the definitions. -/
theorem removeDocument_indexDefs (im : IndexMgr) (c i : String) (d : Value) :
    (removeDocument im c i d).indexDefs = im.indexDefs := by
  unfold removeDocument
  cases alookup im.indexes c <;> rfl

/-- A lookup that survives a JS-map delete was present before. -/
theorem alookup_adel_some {α : Type} (m : List (String × α)) (k i : String) (d : α)
    (h : alookup (adel m k) i = some d) : alookup m i = some d := by
  by_cases hik : i = k
  · rw [hik, alookup_adel_self] at h
    cases h
  · rwa [alookup_adel_ne _ _ _ hik] at h

/-- An invariant that every fold step preserves holds of the fold. -/
theorem foldl_inv {α β : Type} (step : β → α → β) (P : β → Prop)
    (hstep : ∀ b a, P b → P (step b a)) :
    ∀ (l : List α) (b : β), P b → P (l.foldl step b) := by
  intro l
  induction l with
  | nil => exact fun b hb => hb
  | cons a rest ih => exact fun b hb => ih _ (hstep b a hb)

/-- Source `SecureCollection.remove` keeps the collection name and the index
definitions, and only ever shrinks the data map. -/
theorem removeRun_preserves (st : CollState) (filter : Value) (now : Nat)
    (txId : Option String) :
    (removeRun st filter now txId).fst.name = st.name ∧
    (removeRun st filter now txId).fst.idx.indexDefs = st.idx.indexDefs ∧
    (∀ i d, alookup (removeRun st filter now txId).fst.data i = some d →
      alookup st.data i = some d) := by
  unfold removeRun
  refine foldl_inv _
    (fun (acc : CollState × Nat) =>
      acc.1.name = st.name ∧ acc.1.idx.indexDefs = st.idx.indexDefs ∧
      (∀ i d, alookup acc.1.data i = some d → alookup st.data i = some d))
    ?_ _ _ ⟨rfl, rfl, fun i d h => h⟩
  rintro ⟨s, n⟩ ⟨id0, old⟩ ⟨hn, hdefs, hdata⟩
  refine ⟨hn, ?_, ?_⟩
  · rw [removeDocument_indexDefs]
    exact hdefs
  · intro i d h
    exact hdata i d (alookup_adel_some _ _ _ _ h)

/-- A successful insert passed both checks and produced exactly the
append-then-mutate state. -/
theorem insertRun_success (st : CollState) (doc : Value) (genId : String)
    (now : Nat) (txId : Option String)
    (h : (insertRun st doc genId now txId).snd = none) :
    (alookup st.data (resolveId doc genId)).isSome = false ∧
    uniqueViolation st (withId doc (resolveId doc genId)) = false ∧
    (insertRun st doc genId now txId).fst =
      { st with
          log := st.log ++
            [{ op := .INSERT, collection := st.name, id := resolveId doc genId,
               data := some (withId doc (resolveId doc genId)), timestamp := now,
               txId := txId }],
          data := aset st.data (resolveId doc genId) (withId doc (resolveId doc genId)),
          idx := indexDocument st.idx st.name (resolveId doc genId)
            (withId doc (resolveId doc genId)) } := by
  unfold insertRun at h ⊢
  by_cases h1 : (alookup st.data (resolveId doc genId)).isSome
  · simp [h1] at h
  · by_cases h2 : uniqueViolation st (withId doc (resolveId doc genId))
    · simp [h1, h2] at h
    · simp only [Bool.not_eq_true] at h1 h2
      simp [h1, h2]

/-- When the unique check passes, a unique single-field index's query at
the incoming document's defined value returned no hit. -/
theorem uniqueViolation_false_no_hit (st : CollState) (fullDoc : Value)
    (huv : uniqueViolation st fullDoc = false)
    (d : IndexDefinition) (hd : d ∈ getIndexDefinitions st.idx st.name)
    (hu : d.unique = true) (f : String) (hf : d.fields = [f])
    (hval : getNestedValue fullDoc f ≠ .undef)
    (s : List String)
    (hq : queryByIndex st.idx st.name (.obj [(f, getNestedValue fullDoc f)]) = some s) :
    s = [] := by
  unfold uniqueViolation at huv
  rw [List.any_eq_false] at huv
  have hmem : d ∈ (getIndexDefinitions st.idx st.name).filter (fun x => x.unique) :=
    List.mem_filter.mpr ⟨hd, by simp [hu]⟩
  have hthis := huv d hmem
  rw [hf] at hthis
  simp only [List.headD_cons] at hthis
  cases hvv : getNestedValue fullDoc f with
  | undef => exact absurd hvv hval
  | null => rw [hvv] at hthis hq; rw [hq] at hthis; simpa using hthis
  | bool b => rw [hvv] at hthis hq; rw [hq] at hthis; simpa using hthis
  | num n => rw [hvv] at hthis hq; rw [hq] at hthis; simpa using hthis
  | str s2 => rw [hvv] at hthis hq; rw [hq] at hthis; simpa using hthis
  | arr es => rw [hvv] at hthis hq; rw [hq] at hthis; simpa using hthis
  | obj fs => rw [hvv] at hthis hq; rw [hq] at hthis; simpa using hthis

/-- C9 (amended): `SecureCollection.insert` preserves the unique-index
invariant — over well-shaped, coherent single-field unique indexes a
successful insert cannot introduce a second document with an existing
defined indexed value, because the check against the index would have
rejected it — and `SecureCollection.remove` preserves it as well, since
it only shrinks the data map.  `SecureCollection.update` does not
preserve it (see the counterexample): it performs no unique check. -/
theorem claim9_insert_remove_preserve_unique (st : CollState) (doc : Value)
    (genId : String) (now : Nat) (txId : Option String) (filter : Value)
    (hshape : wellShapedIdx st) (hcoh : idxCoherent st) (hinv : uniqueInv st) :
    ((insertRun st doc genId now txId).snd = none →
      uniqueInv (insertRun st doc genId now txId).fst) ∧
    uniqueInv (removeRun st filter now txId).fst := by
  constructor
  · intro hok
    obtain ⟨hdup, huv, hst⟩ := insertRun_success st doc genId now txId hok
    rw [hst]
    intro d hd hu f hf i1 i2 d1 d2 h1 h2 hne heq
    simp only at hd h1 h2
    rw [show getIndexDefinitions
          (indexDocument st.idx st.name (resolveId doc genId)
            (withId doc (resolveId doc genId))) st.name
        = getIndexDefinitions st.idx st.name from by
      unfold getIndexDefinitions
      rw [indexDocument_indexDefs]] at hd
    have hff : f = d.name := by
      have := (hshape.1 d hd hu).1
      rw [hf] at this
      exact (List.cons.injEq _ _ _ _).mp this |>.1
    have hfdot : splitOnChar '.' f = [f] := by
      rw [hff]
      exact (hshape.1 d hd hu).2
    by_cases e1 : i1 = resolveId doc genId <;> by_cases e2 : i2 = resolveId doc genId
    · rw [e1, e2]
    · -- the new document and an old one share the value
      rw [e1, alookup_aset_self] at h1
      have hd1 : d1 = withId doc (resolveId doc genId) := (Option.some.inj h1).symm
      subst hd1
      rw [alookup_aset_ne _ _ _ _ e2] at h2
      have hne2 : getNestedValue d2 f ≠ .undef := by
        rw [← heq]
        exact hne
      obtain ⟨colIdx, m, s, hci, hcm, hcs, hmemb⟩ :=
        hcoh d hd hu f hf i2 d2 h2 hne2
      obtain ⟨hkeys, hnodup⟩ := hshape.2 colIdx hci
      have hq := queryByIndex_single_hit st.idx st.name f
        (getNestedValue (withId doc (resolveId doc genId)) f) colIdx m s hci hkeys hnodup
        (by rw [hff]; exact hff ▸ hcm) hne (by rw [heq]; exact hcs)
        (List.ne_nil_of_mem hmemb)
      have hempty := uniqueViolation_false_no_hit st _ huv d hd hu f hf hne s hq
      rw [hempty] at hmemb
      cases hmemb
    · -- an old document and the new one share the value
      rw [e2, alookup_aset_self] at h2
      have hd2 : d2 = withId doc (resolveId doc genId) := (Option.some.inj h2).symm
      subst hd2
      rw [alookup_aset_ne _ _ _ _ e1] at h1
      have hnew : getNestedValue (withId doc (resolveId doc genId)) f ≠ .undef := by
        rw [← heq]
        exact hne
      obtain ⟨colIdx, m, s, hci, hcm, hcs, hmemb⟩ :=
        hcoh d hd hu f hf i1 d1 h1 hne
      obtain ⟨hkeys, hnodup⟩ := hshape.2 colIdx hci
      have hq := queryByIndex_single_hit st.idx st.name f
        (getNestedValue (withId doc (resolveId doc genId)) f) colIdx m s hci hkeys hnodup
        (hff ▸ hcm) hnew (by rw [← heq]; exact hcs)
        (List.ne_nil_of_mem hmemb)
      have hempty := uniqueViolation_false_no_hit st _ huv d hd hu f hf hnew s hq
      rw [hempty] at hmemb
      cases hmemb
    · rw [alookup_aset_ne _ _ _ _ e1] at h1
      rw [alookup_aset_ne _ _ _ _ e2] at h2
      exact hinv d hd hu f hf i1 i2 d1 d2 h1 h2 hne heq
  · obtain ⟨hname, hdefs, hdata⟩ := removeRun_preserves st filter now txId
    intro d hd hu f hf i1 i2 d1 d2 h1 h2 hne heq
    rw [show getIndexDefinitions (removeRun st filter now txId).fst.idx
          (removeRun st filter now txId).fst.name
        = getIndexDefinitions st.idx st.name from by
      unfold getIndexDefinitions
      rw [hname, hdefs]] at hd
    exact hinv d hd hu f hf i1 i2 d1 d2 (hdata i1 d1 h1) (hdata i2 d2 h2) hne heq

theorem claim9_insert_remove_preserve_unique_witness :
    wellShapedIdx c9empty ∧ idxCoherent c9empty ∧ uniqueInv c9empty ∧
    ((insertRun c9empty c9newDoc "gen" 1 none).snd = none →
      uniqueInv (insertRun c9empty c9newDoc "gen" 1 none).fst) ∧
    uniqueInv (removeRun c9empty (.obj []) 1 none).fst := by
  have hshape : wellShapedIdx c9empty := by
    constructor
    · intro d hd hu
      simp [getIndexDefinitions, c9empty, alookup] at hd
      subst hd
      exact ⟨rfl, rfl⟩
    · intro colIdx hci
      simp [c9empty, alookup] at hci
      subst hci
      constructor
      · intro p hp
        simp at hp
        subst hp
        exact ⟨rfl, rfl⟩
      · simp
  have hcoh : idxCoherent c9empty := by
    intro d hd hu f hf i dc hdc
    simp [c9empty, alookup] at hdc
  have hinv : uniqueInv c9empty := by
    intro d hd hu f hf i1 i2 d1 d2 h1
    simp [c9empty, alookup] at h1
  have h := claim9_insert_remove_preserve_unique c9empty c9newDoc "gen" 1 none
    (.obj []) hshape hcoh hinv
  exact ⟨hshape, hcoh, hinv, h.1, h.2⟩

/-- C5: the claim states that after any flush the AOL file is exactly a
concatenation of line-delimited serialized entries, in particular after a
compaction.  On the code, `compact` writes `lines.join("\n")` with no
trailing newline, while `flush` appends `lines.join("\n") + "\n"` directly
to the file: flushing one new entry after a compaction glues the last
compacted entry and the new entry onto a single line.  Concretely, after
insert–flush–compact–insert–flush the file holds two entries but decodes
to a single (corrupt) line. -/
theorem claim5_flush_after_compact_glues_lines :
    ¬ wellFormedAol c5final.content c5final.entriesOnDisk ∧
    (aolLines c5final.content).length = 1 ∧
    c5final.entriesOnDisk.length = 2 := by
  have hs1 : stringifyValue (.obj [("_id", .str "u1")]) = "\x7b\"_id\":\"u1\"\x7d" := by
    simp [stringifyValue, stringifyFields]
  have hs2 : stringifyValue (.obj [("_id", .str "u2")]) = "\x7b\"_id\":\"u2\"\x7d" := by
    simp [stringifyValue, stringifyFields]
  refine ⟨?_, ?_, rfl⟩
  · simp [wellFormedAol, c5final, c5file, c5e1, c5e2, afFlush, afAppend, afCompact,
      chkOff, applyChecksum, compactState, compactStep, keyOf, serEntry, opName,
      aset, adel, alookup, hs1, hs2]
    decide
  · simp [c5final, c5file, c5e1, c5e2, afFlush, afAppend, afCompact,
      chkOff, applyChecksum, compactState, compactStep, keyOf, serEntry, opName,
      aset, adel, alookup, hs1, hs2, aolLines, splitOnChar, splitOnChar.go, strTrim]
    decide

/-- C1 (counterexample): the claim states that replay applies no
`INSERT`/`UPDATE`/`DELETE` entry whose `txId` belongs to a transaction
with `BEGIN` but no `COMMIT`.  Replaying a log holding `BEGIN(t1)` and an
`INSERT` carrying `txId = t1` — and no `COMMIT` anywhere — leaves the
inserted document visible in the collection's in-memory state: the replay
loop filters only on the collection name prefix, never on `txId`. -/
theorem claim1_counterexample :
    (∀ e ∈ c1log, e.op ≠ .COMMIT) ∧
    replayedDoc c1log "users" "u1" = some c1doc :=
  ⟨by decide, rfl⟩

/-- C1 (amended): during `LmcsDB.initialize`'s replay, exactly the
entries whose collection starts with `_` are skipped; a data entry is
applied to its collection's in-memory state regardless of its `txId`'s
commit status.  In particular, appending an `INSERT` for a document to
any log in which its transaction `t` has no `COMMIT` makes the document
visible after replay. -/
theorem claim1_replay_applies_uncommitted (log : List LogEntry) (c i : String)
    (doc : Value) (t : String) (ts : Nat)
    (hc : strStartsWith c "_" = false)
    (hunc : ∀ e ∈ log, e.op = .COMMIT → e.id ≠ t) :
    replayedDoc
      (log ++ [{ op := .INSERT, collection := c, id := i, data := some doc,
                 timestamp := ts, txId := some t }]) c i = some doc := by
  unfold replayedDoc replayLog
  rw [List.foldl_append]
  simp only [List.foldl_cons, List.foldl_nil]
  rw [show replayStep (List.foldl replayStep { collections := [], idx := emptyIndexMgr } log)
        { op := .INSERT, collection := c, id := i, data := some doc,
          timestamp := ts, txId := some t } =
      { collections :=
          aset (List.foldl replayStep { collections := [], idx := emptyIndexMgr } log).collections c
            (aset ((alookup (List.foldl replayStep
              { collections := [], idx := emptyIndexMgr } log).collections c).getD []) i doc),
        idx := indexDocument
          (List.foldl replayStep { collections := [], idx := emptyIndexMgr } log).idx c i doc }
    from by simp [replayStep, hc, loadFromLog]]
  simp [alookup_aset_self]

theorem claim1_replay_applies_uncommitted_witness :
    strStartsWith "users" "_" = false ∧
    (∀ e ∈ [c1begin], e.op = .COMMIT → e.id ≠ "t1") ∧
    replayedDoc
      ([c1begin] ++ [{ op := .INSERT, collection := "users", id := "u1",
                       data := some c1doc, timestamp := 2,
                       txId := some "t1" }]) "users" "u1" = some c1doc :=
  ⟨rfl, by decide,
   claim1_replay_applies_uncommitted [c1begin] "users" "u1" c1doc "t1" 2 rfl (by decide)⟩

/-- C2: the claim states that decrypting (with the same vault) the
payload produced by `encrypt` returns the plaintext.  On the code,
`decrypt` re-derives its key as
`pbkdf2(hex(derivedKey), payload.salt, ...)` — feeding the hex of the
derived key where the password is required — so for any key-derivation
function for which that second derivation differs from `derivedKey`
itself (as PBKDF2 does), GCM authentication rejects the pair and
`decrypt` fails on every payload `encrypt` produces. -/
theorem claim2_decrypt_rejects_own_encrypt (g : GcmCipher) (kdf : KdfFun)
    (hexEnc : String → String) (pw salt iv s : String)
    (h : kdf.pbkdf2 (hexEnc (kdf.pbkdf2 pw salt 100000 32)) salt 100000 32
         ≠ kdf.pbkdf2 pw salt 100000 32) :
    vaultDecrypt g kdf hexEnc (vaultInit kdf pw salt)
      (vaultEncrypt g (vaultInit kdf pw salt) iv s) = none := by
  simp only [vaultDecrypt, vaultEncrypt, vaultInit]
  by_contra hc
  exact h (g.auth (kdf.pbkdf2 pw salt 100000 32) _ iv s hc)

theorem claim2_decrypt_rejects_own_encrypt_witness :
    kdfToy.pbkdf2 (hexToy (kdfToy.pbkdf2 "pw" "salt0" 100000 32)) "salt0" 100000 32
      ≠ kdfToy.pbkdf2 "pw" "salt0" 100000 32 ∧
    vaultDecrypt gcmToy kdfToy hexToy (vaultInit kdfToy "pw" "salt0")
      (vaultEncrypt gcmToy (vaultInit kdfToy "pw" "salt0") "iv0" "hello") = none :=
  ⟨by decide,
   claim2_decrypt_rejects_own_encrypt gcmToy kdfToy hexToy "pw" "salt0" "iv0" "hello"
     (by decide)⟩

/-- C4 (counterexample): the claim states commit flushes before
returning, leaving the transaction's entries and the `COMMIT` envelope on
disk.  Committing a one-operation transaction at the default buffer size
of 100 returns with the disk still empty and three entries (`BEGIN`,
`UPDATE`, `COMMIT`) in the in-memory buffer. -/
theorem claim4_counterexample :
    (commitRun chkOff c4state "t1" 7).snd = none ∧
    (commitRun chkOff c4state "t1" 7).fst.storage.disk = [] ∧
    (commitRun chkOff c4state "t1" 7).fst.storage.buffer.length = 3 :=
  ⟨rfl, rfl, rfl⟩

end LmcsDb
